import Mathlib

/-!
Verification development for the collection-route path resolver
(`packages/gatsby-plugin-page-creator/src/derive-path.ts`).

The resolver `derivePath` takes a file-path template containing bracketed
dynamic segments, a data record, and a reporter; it substitutes each
segment by a slugified field value looked up in the record and collapses
duplicate slashes.  The helper module `path-utils` and the external
collaborators (`lodash`'s `get`, `@sindresorhus/slugify`, the reporter,
`JSON.stringify`, JavaScript's `String(...)` coercion) are not part of the
reviewed sources; definitions for them below are modelled from the
specification and from the documented semantics of those collaborators,
and each such definition says so in its doc comment.  Everything else is a
direct translation of `derive-path.ts`.
-/

namespace DerivePath

/-! ## JavaScript-like values

Records handed to `derivePath` are arbitrarily nested JavaScript data:
scalars, arrays and string-keyed objects.  The type is a mutual inductive
(rather than nesting `List`) so that all functions over it are structural
and reduce inside the kernel. -/

mutual

inductive JValue where
  | vNull : JValue
  | vBool : Bool → JValue
  | vNum : Int → JValue
  | vStr : String → JValue
  | vArr : JList → JValue
  | vObj : JFields → JValue

inductive JList where
  | nil : JList
  | cons : JValue → JList → JList

inductive JFields where
  | nil : JFields
  | cons : String → JValue → JFields → JFields

end

open JValue

/-- Build a `JList` from a Lean list (convenience for concrete records). -/
def toJList : List JValue → JList
  | [] => JList.nil
  | v :: vs => JList.cons v (toJList vs)

/-- Build a `JFields` from a Lean association list. -/
def toJFields : List (String × JValue) → JFields
  | [] => JFields.nil
  | (k, v) :: fs => JFields.cons k v (toJFields fs)

/-- Array literal helper. -/
def jarr (vs : List JValue) : JValue := vArr (toJList vs)

/-- Object literal helper. -/
def jobj (fs : List (String × JValue)) : JValue := vObj (toJFields fs)

/-- First binding for a field name in an object (JavaScript property read). -/
def lookupField : JFields → String → Option JValue
  | JFields.nil, _ => none
  | JFields.cons k v rest, key => if k = key then some v else lookupField rest key

/-- Zero-based indexing into a JavaScript array. -/
def jIndex : JList → Nat → Option JValue
  | JList.nil, _ => none
  | JList.cons v _, 0 => some v
  | JList.cons _ rest, n + 1 => jIndex rest n

/-- JavaScript truthiness: `undefined` (encoded as `Option.none` outside this
function), `null`, `false`, `0` and the empty string are falsy; objects and
arrays are always truthy. -/
def jsTruthy : JValue → Bool
  | vNull => false
  | vBool b => b
  | vNum n => n != 0
  | vStr s => s != ""
  | vArr _ => true
  | vObj _ => true

/-- Truthiness of a possibly-undefined value (`none` is `undefined`). -/
def jsTruthyO : Option JValue → Bool
  | none => false
  | some v => jsTruthy v

/-! ## Character-list utilities

The string operations `derive-path.ts` relies on (`String.prototype.replace`
with a string pattern, `split`/`join`, the `//+` collapse, extension
stripping) are implemented over `List Char` so that every computation is
structural and every theorem can be evaluated by the kernel. -/

/-- Split a character list at every occurrence of `sep`
(JavaScript `str.split(sep)` for a one-character separator: the result is
never empty, and empty pieces are kept). -/
def splitOnChar (sep : Char) : List Char → List (List Char)
  | [] => [[]]
  | c :: rest =>
    if c = sep then [] :: splitOnChar sep rest
    else
      match splitOnChar sep rest with
      | p :: ps => (c :: p) :: ps
      | [] => [[c]]

/-- Join pieces with a separator list (JavaScript `arr.join(sep)`). -/
def joinWith (sep : List Char) : List (List Char) → List Char
  | [] => []
  | [p] => p
  | p :: ps => p ++ sep ++ joinWith sep ps

/-- Replace the first occurrence of `pat` by `repl`
(JavaScript `str.replace(pat, repl)` with a plain-string pattern: at most
one occurrence is rewritten, and the input is returned unchanged when the
pattern does not occur). -/
def replaceFirstChars (pat repl : List Char) : List Char → List Char
  | [] => if pat = [] then repl else []
  | c :: rest =>
    if pat.isPrefixOf (c :: rest) then repl ++ (c :: rest).drop pat.length
    else c :: replaceFirstChars pat repl rest

/-- Collapse every run of consecutive `'/'` characters to a single `'/'`
(the final `replace(/\/\/+/g, "/")` pass of `derivePath`; a maximal run of
two or more slashes becomes one slash, single slashes are kept).  The flag
records whether the previous emitted character was part of a slash run. -/
def collapseGo : Bool → List Char → List Char
  | _, [] => []
  | afterSlash, c :: rest =>
    if c = '/' then
      if afterSlash then collapseGo true rest
      else '/' :: collapseGo true rest
    else c :: collapseGo false rest

/-- Whether a character list contains two adjacent `'/'` characters. -/
def hasDoubleSlash : List Char → Bool
  | [] => false
  | [_] => false
  | c :: d :: rest => (c = '/' && d = '/') || hasDoubleSlash (d :: rest)

/-- `small` occurs contiguously inside `big`. -/
def occursIn (small big : List Char) : Prop :=
  ∃ x y, big = x ++ small ++ y

/-- Decidable occurrence check matching `occursIn`. -/
def hasOccurrence (pat : List Char) : List Char → Bool
  | [] => pat.isEmpty
  | c :: rest => pat.isPrefixOf (c :: rest) || hasOccurrence pat rest

/-- String wrapper for `collapseGo`. -/
def collapseStr (s : String) : String := ⟨collapseGo false s.data⟩

/-- String wrapper for `replaceFirstChars`. -/
def replaceFirstStr (s pat repl : String) : String :=
  ⟨replaceFirstChars pat.data repl.data s.data⟩

/-- String wrapper for `hasDoubleSlash`. -/
def hasDoubleSlashStr (s : String) : Bool := hasDoubleSlash s.data

/-! ## Modelled `path-utils` helpers

`derive-path.ts` imports `compose`, `removeFileExtension`,
`extractFieldWithoutUnion`, `extractAllCollectionSegments` and
`switchToPeriodDelimiters` from `./path-utils`, which is not among the
reviewed sources; the definitions below are modelled from the
specification's Pattern Analyzer contract. -/

/-- Modelled from the spec: `removeFileExtension` from the missing
`path-utils` module.  A file-extension suffix — a dot followed by one or
more alphanumeric characters at the end of the string — is stripped
(matching on the reversed string: a nonempty alphanumeric run, then a
dot); any other string is returned unchanged. -/
def removeExtChars (l : List Char) : List Char :=
  match l.reverse.takeWhile Char.isAlphanum, l.reverse.dropWhile Char.isAlphanum with
  | _ :: _, '.' :: rest => rest.reverse
  | _, _ => l

/-- Modelled from the spec: string version of `removeExtChars`. -/
def removeFileExtension (s : String) : String := ⟨removeExtChars s.data⟩

/-- Modelled from the spec: the scanner behind `extractAllCollectionSegments`
from the missing `path-utils` module.  It scans left to right for
non-overlapping bracketed regions; a region opens at a `'{'` and closes at
the next `'}'` (regions do not nest), and each matched region including its
delimiters becomes one segment.  `none` means the scanner is outside a
region; `some acc` means it is inside one, `acc` holding the chars read
since the opening brace in reverse order.  An unclosed trailing region is
not a segment. -/
def extractGo : Option (List Char) → List Char → List (List Char)
  | _, [] => []
  | none, c :: rest =>
    if c = '{' then extractGo (some []) rest else extractGo none rest
  | some acc, c :: rest =>
    if c = '}' then ('{' :: acc.reverse ++ ['}']) :: extractGo none rest
    else extractGo (some (c :: acc)) rest

/-- Modelled from the spec: `extractAllCollectionSegments` from the missing
`path-utils` module.  Returns the ordered raw texts (brackets included) of
the template's dynamic segments; a template without segments yields `[]`
(the single static page case, not an error). -/
def extractAllCollectionSegments (s : String) : List String :=
  (extractGo none s.data).map (fun l => (⟨l⟩ : String))

/-- Modelled from the spec: removing the segment delimiters — the leading
`'{'` and the trailing `'}'` — from a segment's raw text. -/
def stripBraces (l : List Char) : List Char :=
  let l1 := match l with
    | '{' :: rest => rest
    | _ => l
  match l1.reverse with
  | '}' :: rest => rest.reverse
  | _ => l1

/-- Modelled from the spec: a segment's field reference is what follows the
first `'.'` (the part before it names the model/type, e.g. `Product` in
`Product.name`, and is not part of the field path); a segment without a dot
has an empty field reference. -/
def dropThroughDot : List Char → List Char
  | [] => []
  | '.' :: rest => rest
  | _ :: rest => dropThroughDot rest

/-- Modelled from the spec: split a field reference at every
double-underscore separator. -/
def splitDunder : List Char → List (List Char)
  | [] => [[]]
  | '_' :: '_' :: rest => [] :: splitDunder rest
  | c :: rest =>
    match splitDunder rest with
    | p :: ps => (c :: p) :: ps
    | [] => [[c]]

/-- Modelled from the spec: a path component wrapped in parentheses is a
union-type marker such as `(File)`. -/
def isUnionComp (l : List Char) : Bool :=
  match l with
  | '(' :: rest => rest.getLast? == some ')'
  | _ => false

/-- Modelled from the spec: `extractFieldWithoutUnion` from the missing
`path-utils` module.  Strips the segment delimiters, drops the leading
model name up to the first dot, and removes every parenthesised union
marker component from the double-underscore separated field reference
(the marker is excluded from the path used for value lookup). -/
def extractFieldWithoutUnion (seg : String) : String :=
  ⟨joinWith ['_', '_']
    ((splitDunder (dropThroughDot (stripBraces seg.data))).filter
      (fun comp => !isUnionComp comp))⟩

/-- Modelled from the spec: rewrite every double-underscore separator to a
single dot, exactly as `switchToPeriodDelimiters` in the missing
`path-utils` module (`foo__bar` becomes `foo.bar`). -/
def switchChars : List Char → List Char
  | [] => []
  | '_' :: '_' :: rest => '.' :: switchChars rest
  | c :: rest => c :: switchChars rest

/-- Modelled from the spec: string version of `switchChars`. -/
def switchToPeriodDelimiters (s : String) : String := ⟨switchChars s.data⟩

/-- The composed key computation of `derive-path.ts` step 3.a:
`compose(extractFieldWithoutUnion, switchToPeriodDelimiters)(slugPart)`,
applied left to right. -/
def segKey (slugPart : String) : String :=
  switchToPeriodDelimiters (extractFieldWithoutUnion slugPart)

/-! ## Modelled external collaborators: `String(...)`, `JSON.stringify`,
`lodash.get`, `slugify` -/

/-- Digits-only parse of an array index (the only index strings `lodash.get`
receives from `derive-path.ts` are `"0"` and record field names). -/
def digitsToNat? : List Char → Option Nat
  | [] => none
  | l => go l 0
where
  go : List Char → Nat → Option Nat
    | [], acc => some acc
    | c :: rest, acc =>
      if c.isDigit then go rest (acc * 10 + (c.toNat - 48)) else none

mutual

/-- Modelled from the spec: JavaScript `String(value)` coercion used by
`safeSlugify` ("numbers are stringified").  Strings pass through, numbers
and booleans print, `null` prints as `"null"`, arrays join their
element strings with commas (`null` elements print as the empty string),
and plain objects print as `"[object Object]"`. -/
def jsToString : JValue → String
  | vNull => "null"
  | vBool b => if b then "true" else "false"
  | vNum n => toString n
  | vStr s => s
  | vArr xs => jsArrElems xs
  | vObj _ => "[object Object]"
termination_by structural v => v

/-- Comma-joined element strings of an array (JavaScript
`Array.prototype.toString`; `null` elements print as the empty string). -/
def jsArrElems : JList → String
  | JList.nil => ""
  | JList.cons vNull JList.nil => ""
  | JList.cons v JList.nil => jsToString v
  | JList.cons vNull rest => "," ++ jsArrElems rest
  | JList.cons v rest => jsToString v ++ "," ++ jsArrElems rest
termination_by structural l => l

end

mutual

/-- Modelled from the spec: the record serialisation sent to the reporter
(`JSON.stringify(node, null, 4)` in the source; the pretty-printing
whitespace is abstracted away, the serialised content is kept). -/
def jsonStringify : JValue → String
  | vNull => "null"
  | vBool b => if b then "true" else "false"
  | vNum n => toString n
  | vStr s => "\"" ++ s ++ "\""
  | vArr xs => "[" ++ jsonArr xs ++ "]"
  | vObj fs => "\x7b" ++ jsonFields fs ++ "\x7d"
termination_by structural v => v

/-- Comma-separated serialisation of array elements. -/
def jsonArr : JList → String
  | JList.nil => ""
  | JList.cons v JList.nil => jsonStringify v
  | JList.cons v rest => jsonStringify v ++ "," ++ jsonArr rest
termination_by structural l => l

/-- Comma-separated serialisation of object fields. -/
def jsonFields : JFields → String
  | JFields.nil => ""
  | JFields.cons k v JFields.nil => "\"" ++ k ++ "\":" ++ jsonStringify v
  | JFields.cons k v rest => "\"" ++ k ++ "\":" ++ jsonStringify v ++ "," ++ jsonFields rest
termination_by structural f => f

end

/-- One step of `lodash.get`: read one path component off a value.  Objects
are read by field name, arrays by numeric index; scalars have no
properties. -/
def jsGetStep (v : JValue) (k : String) : Option JValue :=
  match v with
  | vObj fs => lookupField fs k
  | vArr xs =>
    match digitsToNat? k.data with
    | some i => jIndex xs i
    | none => none
  | _ => none

/-- Walk a parsed `lodash.get` path. -/
def walkPath (v : JValue) : List String → Option JValue
  | [] => some v
  | k :: ks =>
    match jsGetStep v k with
    | some v2 => walkPath v2 ks
    | none => none

/-- Modelled from the documented `lodash` path grammar, restricted to the
two shapes `derive-path.ts` builds: a dotted key, or a dotted key prefixed
with the literal index `[0]`.  The empty string parses to the empty path. -/
def parsePath (s : String) : List String :=
  match s.data with
  | [] => []
  | '[' :: '0' :: ']' :: rest =>
    "0" :: (match rest with
      | [] => []
      | l => (splitOnChar '.' l).map (fun p => (⟨p⟩ : String)))
  | l => (splitOnChar '.' l).map (fun p => (⟨p⟩ : String))

/-- Modelled from the documented semantics of `lodash.get(object, path)`:
`undefined` when the receiver is `undefined` or the path is empty,
otherwise the walk of the parsed path (with `undefined` for any missing
step). -/
def lodashGet (ov : Option JValue) (pathStr : String) : Option JValue :=
  match ov with
  | none => none
  | some v =>
    match parsePath pathStr with
    | [] => none
    | k :: ks => walkPath v (k :: ks)

/-- JavaScript property read `node.nodes` (the aggregate receiver). -/
def nodesProp (node : JValue) : Option JValue :=
  match node with
  | vObj fs => lookupField fs "nodes"
  | _ => none

/-- The aggregate lookup of `derive-path.ts` step 3.b:
`_.get(node.nodes, `[0]${key}`)`. -/
def aggLookup (node : JValue) (key : String) : Option JValue :=
  lodashGet (nodesProp node) ("[0]" ++ key)

/-- The direct lookup of `derive-path.ts` step 3.b: `_.get(node, key)`. -/
def dirLookup (node : JValue) (key : String) : Option JValue :=
  lodashGet (some node) key

/-- Step 3.b of `derive-path.ts`:
`_.get(node.nodes, `[0]${key}`) || _.get(node, key)` — the aggregate value
when it is truthy, the direct value otherwise (`undefined` when both sides
leave the `||` undefined). -/
def lookupNodeValue (node : JValue) (key : String) : Option JValue :=
  if jsTruthyO (aggLookup node key) then aggLookup node key
  else dirLookup node key

/-- Lower-casing table for ASCII letters (the case-folding step of the
modelled slug algorithm). -/
def lowerPairs : List (Char × Char) :=
  [('A', 'a'), ('B', 'b'), ('C', 'c'), ('D', 'd'), ('E', 'e'), ('F', 'f'),
   ('G', 'g'), ('H', 'h'), ('I', 'i'), ('J', 'j'), ('K', 'k'), ('L', 'l'),
   ('M', 'm'), ('N', 'n'), ('O', 'o'), ('P', 'p'), ('Q', 'q'), ('R', 'r'),
   ('S', 's'), ('T', 't'), ('U', 'u'), ('V', 'v'), ('W', 'w'), ('X', 'x'),
   ('Y', 'y'), ('Z', 'z')]

/-- Lower-case one character via `lowerPairs` (other characters are kept). -/
def lowerChar (c : Char) : Char := (lowerPairs.lookup c).getD c

/-- Modelled from the spec: per-character behaviour of the standard slug
algorithm (`@sindresorhus/slugify`) — lower-casing, whitespace to hyphen,
punctuation removal; hyphens are kept, every other character is dropped
(in particular diacritics and other non-ASCII characters, whose
transliteration no reviewed behaviour depends on). -/
def slugChar (c : Char) : Option Char :=
  if c = ' ' || c = '\t' || c = '\n' || c = '\r' then some '-'
  else if c = '-' then some '-'
  else if c.isAlpha || c.isDigit then some (lowerChar c)
  else none

/-- Modelled from the spec: the slug of a character list. -/
def slugifyChars (l : List Char) : List Char := l.filterMap slugChar

/-- Modelled from the spec: `slugify` on strings. -/
def slugify (s : String) : String := ⟨slugifyChars s.data⟩

/-! ## The embedded `derivePath` -/

/-- `safeSlugify` from `derive-path.ts`: coerce the value to a string,
split it on `'/'`, slugify each piece independently and rejoin with `'/'`
so that slashes inside a field value survive slugification. -/
def safeSlugify (nodeValue : JValue) : String :=
  ⟨joinWith ['/'] ((splitOnChar '/' (jsToString nodeValue).data).map slugifyChars)⟩

/-- One report sent to the reporter collaborator for an unresolved segment:
the `reporter.error` message naming the raw segment text and its normalised
key, together with the `reporter.log` serialisation of the record. -/
structure ReportEvent where
  message : String
  loggedNode : String
deriving DecidableEq

/-- The report built in step 3.c of `derive-path.ts`. -/
def mkReport (slugPart key : String) (node : JValue) : ReportEvent :=
  { message := "PageCreator: Could not find value in the following node for key "
      ++ slugPart ++ " (transformed to " ++ key ++ ")"
    loggedNode := jsonStringify node }

/-- Result of a `derivePath` call: the returned path plus the reports sent
to the reporter collaborator while computing it. -/
structure DeriveResult where
  path : String
  errors : List ReportEvent
deriving DecidableEq

/-- The body of the `slugParts.forEach` loop in `derive-path.ts`: look the
segment's key up in the record; on success substitute the slugified value
for the first occurrence of the raw segment text, on failure report and
leave the path unchanged. -/
def deriveStep (node : JValue) (acc : String × List ReportEvent)
    (slugPart : String) : String × List ReportEvent :=
  match lookupNodeValue node (segKey slugPart) with
  | none => (acc.1, acc.2 ++ [mkReport slugPart (segKey slugPart) node])
  | some v => (replaceFirstStr acc.1 slugPart (safeSlugify v), acc.2)

/-- `derivePath` from `derive-path.ts`: strip the extension, extract the
bracketed slug parts, substitute each resolvable part by its slugified
value (reporting each unresolvable one), then collapse runs of forward
slashes. -/
def derivePath (path : String) (node : JValue) : DeriveResult :=
  let pathWithoutExtension := removeFileExtension path
  let slugParts := extractAllCollectionSegments path
  let res := slugParts.foldl (deriveStep node) (pathWithoutExtension, [])
  ⟨collapseStr res.1, res.2⟩

/-! ## Helper lemmas about the collapse pass -/

/-- Dropping the second slash of a double never reintroduces one:
prepending a non-slash, or a slash in front of a slash-free-headed list,
preserves absence of double slashes. -/
theorem hasDoubleSlash_cons (c : Char) (t : List Char)
    (h : c ≠ '/' ∨ t.head? ≠ some '/') :
    hasDoubleSlash (c :: t) = hasDoubleSlash t := by
  cases t with
  | nil => simp [hasDoubleSlash]
  | cons d t' =>
    have hcd : (c = '/' && d = '/') = false := by
      rcases h with h | h
      · simp [h]
      · have hd : d ≠ '/' := by
          intro hd
          exact h (by simp [hd])
        simp [hd]
    simp [hasDoubleSlash, hcd]

/-- The collapse pass leaves no double slash, and after an open slash run
its output never starts with a slash. -/
theorem collapseGo_flags (l : List Char) :
    hasDoubleSlash (collapseGo false l) = false ∧
    hasDoubleSlash (collapseGo true l) = false ∧
    (collapseGo true l).head? ≠ some '/' := by
  induction l with
  | nil => simp [collapseGo, hasDoubleSlash]
  | cons c rest ih =>
    obtain ⟨ih1, ih2, ih3⟩ := ih
    by_cases hc : c = '/'
    · subst hc
      have e1 : collapseGo false ('/' :: rest) = '/' :: collapseGo true rest := by
        simp [collapseGo]
      have e2 : collapseGo true ('/' :: rest) = collapseGo true rest := by
        simp [collapseGo]
      refine ⟨?_, ?_, ?_⟩
      · rw [e1, hasDoubleSlash_cons _ _ (Or.inr ih3)]
        exact ih2
      · rw [e2]; exact ih2
      · rw [e2]; exact ih3
    · have e3 : ∀ b, collapseGo b (c :: rest) = c :: collapseGo false rest := by
        intro b; simp [collapseGo, hc]
      refine ⟨?_, ?_, ?_⟩
      · rw [e3, hasDoubleSlash_cons _ _ (Or.inl hc)]
        exact ih1
      · rw [e3, hasDoubleSlash_cons _ _ (Or.inl hc)]
        exact ih1
      · rw [e3]
        simp [hc]

/-- Splitting the collapse pass at a non-slash character: everything before
it collapses independently of everything from it on. -/
theorem collapseGo_append (c : Char) (hc : c ≠ '/') (x : List Char) :
    ∀ (b : Bool) (r : List Char),
      collapseGo b (x ++ c :: r) = collapseGo b x ++ collapseGo false (c :: r) := by
  induction x with
  | nil => intro b r; simp [collapseGo, hc]
  | cons d x' ih =>
    intro b r
    by_cases hd : d = '/'
    · subst hd
      cases b <;> simp [collapseGo, ih]
    · simp [collapseGo, hd, ih]

/-- The collapse pass maps a block that neither starts nor ends with a
slash to a contiguous block of the collapsed output. -/
theorem occursIn_collapse (mid big : List Char)
    (h : occursIn ('{' :: mid ++ ['}']) big) :
    occursIn (collapseGo false ('{' :: mid ++ ['}'])) (collapseGo false big) := by
  obtain ⟨x, y, hxy⟩ := h
  have hseg1 : ('{' :: mid ++ ['}']) ++ y = '{' :: (mid ++ '}' :: y) := by simp
  have hbig : big = x ++ '{' :: (mid ++ '}' :: y) := by
    rw [hxy, ← List.append_assoc] at *
    simp [hxy]
  have h1 : collapseGo false big
      = collapseGo false x ++ collapseGo false ('{' :: (mid ++ '}' :: y)) := by
    rw [hbig]
    exact collapseGo_append '{' (by decide) x false (mid ++ '}' :: y)
  have h2 : collapseGo false ('{' :: (mid ++ '}' :: y))
      = collapseGo false ('{' :: mid) ++ collapseGo false ('}' :: y) := by
    have := collapseGo_append '}' (by decide) ('{' :: mid) false y
    simpa using this
  have h3 : collapseGo false ('}' :: y) = '}' :: collapseGo false y := by
    simp [collapseGo]
  have h4 : collapseGo false ('{' :: mid ++ ['}'])
      = collapseGo false ('{' :: mid) ++ ['}'] := by
    have := collapseGo_append '}' (by decide) ('{' :: mid) false []
    simpa [collapseGo] using this
  refine ⟨collapseGo false x, collapseGo false y, ?_⟩
  rw [h1, h2, h3, h4]
  simp

/-! ## Helper lemmas about segment extraction -/

/-- An occurrence inside a tail is an occurrence in the whole list. -/
theorem occursIn_cons (c : Char) (s t : List Char) (h : occursIn s t) :
    occursIn s (c :: t) := by
  obtain ⟨x, y, hxy⟩ := h
  exact ⟨c :: x, y, by simp [hxy]⟩

/-- Every extracted segment is a brace-delimited block. -/
theorem extractGo_shape (l : List Char) :
    ∀ (st : Option (List Char)) (s : List Char), s ∈ extractGo st l →
      ∃ mid, s = '{' :: mid ++ ['}'] := by
  induction l with
  | nil => intro st s h; simp [extractGo] at h
  | cons c rest ih =>
    intro st s h
    cases st with
    | none =>
      by_cases hc : c = '{'
      · simp only [extractGo, if_pos hc] at h
        exact ih _ s h
      · simp only [extractGo, if_neg hc] at h
        exact ih _ s h
    | some acc =>
      by_cases hc : c = '}'
      · simp [extractGo, hc] at h
        rcases h with h | h
        · exact ⟨acc.reverse, by simp [h]⟩
        · exact ih _ s h
      · simp [extractGo, hc] at h
        exact ih _ s h

/-- Every extracted segment occurs verbatim in the scanned list; while
inside an open region, a segment either closes the region (its text being
the opening brace, the accumulated characters and the text up to the next
closing brace) or occurs later. -/
theorem extractGo_occurs (l : List Char) :
    (∀ s, s ∈ extractGo none l → occursIn s l) ∧
    (∀ s acc, s ∈ extractGo (some acc) l →
      (∃ u v, l = u ++ '}' :: v ∧ s = '{' :: (acc.reverse ++ u) ++ ['}']) ∨
        occursIn s l) := by
  induction l with
  | nil => constructor <;> intro s <;> simp [extractGo]
  | cons c rest ih =>
    obtain ⟨ihN, ihQ⟩ := ih
    constructor
    · intro s h
      by_cases hc : c = '{'
      · subst hc
        simp only [extractGo, ite_true, eq_self_iff_true] at h
        rcases ihQ s [] h with ⟨u, v, hrest, hs⟩ | hocc
        · refine ⟨[], v, ?_⟩
          simp [hrest, hs]
        · exact occursIn_cons _ _ _ hocc
      · simp only [extractGo, if_neg hc] at h
        exact occursIn_cons _ _ _ (ihN s h)
    · intro s acc h
      by_cases hc : c = '}'
      · subst hc
        simp only [extractGo, ite_true, eq_self_iff_true, List.mem_cons] at h
        rcases h with heq | hmem
        · exact Or.inl ⟨[], rest, by simp, by simp [heq]⟩
        · exact Or.inr (occursIn_cons _ _ _ (ihN s hmem))
      · simp only [extractGo, if_neg hc] at h
        rcases ihQ s (c :: acc) h with ⟨u, v, hrest, hs⟩ | hocc
        · refine Or.inl ⟨c :: u, v, by simp [hrest], ?_⟩
          simp only [List.reverse_cons] at hs
          simp [hs]
        · exact Or.inr (occursIn_cons _ _ _ hocc)

/-! ## Helper lemmas about extension stripping -/

/-- Peeling a fully-constrained prefix off an occurrence equation: if every
character of `p` is alphanumeric or a dot while `s` starts with `'}'`, an
occurrence of `s` in `p ++ t` lies entirely within `t`. -/
theorem occurrence_after_pred (p : List Char) :
    ∀ (u s w t : List Char),
      (∀ a ∈ p, a.isAlphanum = true ∨ a = '.') → s.head? = some '}' →
      p ++ t = u ++ s ++ w → ∃ u2, u = p ++ u2 ∧ t = u2 ++ s ++ w := by
  induction p with
  | nil =>
    intro u s w t _ _ h
    exact ⟨u, rfl, by simpa using h⟩
  | cons a p' ih =>
    intro u s w t hp hs h
    cases u with
    | nil =>
      cases s with
      | nil => simp at hs
      | cons s0 s' =>
        have hs0 : s0 = '}' := by simpa using hs
        have ha : a = s0 := by simpa using congrArg List.head? h
        have : a.isAlphanum = true ∨ a = '.' := hp a (by simp)
        rw [ha, hs0] at this
        rcases this with h1 | h1 <;> simp at h1
    | cons b u' =>
      have hab : a = b := by simpa using congrArg List.head? h
      subst hab
      have h2 : p' ++ t = u' ++ s ++ w := by simpa using h
      obtain ⟨u2, hu, ht⟩ := ih u' s w t (fun x hx => hp x (by simp [hx])) hs h2
      exact ⟨u2, by simp [hu], ht⟩

/-- Characterisation of `removeExtChars`: either nothing is stripped, or
the input ends in a dot followed by a nonempty alphanumeric run and exactly
that suffix is stripped. -/
theorem removeExtChars_spec (l : List Char) :
    removeExtChars l = l ∨
    ∃ a rest, l.reverse = a ++ '.' :: rest ∧ (∀ c ∈ a, c.isAlphanum = true) ∧
      removeExtChars l = rest.reverse := by
  unfold removeExtChars
  split
  · next a as rest heq1 heq2 =>
    right
    refine ⟨a :: as, rest, ?_, ?_, rfl⟩
    · conv_lhs => rw [← List.takeWhile_append_dropWhile (p := Char.isAlphanum) (l := l.reverse)]
      rw [heq1, heq2]
    · intro c hc
      rw [← heq1] at hc
      exact List.mem_takeWhile_imp hc
  · left; rfl

/-- A block ending in `'}'` that occurs in a string also occurs in the
string with its file extension stripped. -/
theorem occursIn_removeExt (mid l : List Char)
    (h : occursIn (mid ++ ['}']) l) :
    occursIn (mid ++ ['}']) (removeExtChars l) := by
  rcases removeExtChars_spec l with he | ⟨a, rest, hsplit, hmem, he⟩
  · rwa [he]
  · obtain ⟨x, y, hxy⟩ := h
    have hrev : (a ++ ['.']) ++ rest
        = y.reverse ++ ('}' :: mid.reverse) ++ (x.reverse) := by
      have h1 : l.reverse = y.reverse ++ ('}' :: mid.reverse) ++ x.reverse := by
        rw [hxy]
        simp
      rw [← h1, hsplit]
      simp
    have hpred : ∀ c ∈ a ++ ['.'], c.isAlphanum = true ∨ c = '.' := by
      intro c hc
      rcases List.mem_append.mp hc with hc | hc
      · exact Or.inl (hmem c hc)
      · right; simpa using hc
    obtain ⟨u2, _, ht⟩ :=
      occurrence_after_pred (a ++ ['.'])
        y.reverse ('}' :: mid.reverse) x.reverse rest hpred (by rfl) hrev
    rw [he]
    refine ⟨x, u2.reverse, ?_⟩
    have h3 : rest.reverse = (u2 ++ ('}' :: mid.reverse) ++ x.reverse).reverse := by
      rw [ht]
    rw [h3]
    simp

/-! ## Helper lemmas about splitting, joining and slugification -/

/-- `splitOnChar` never returns the empty list of pieces. -/
theorem splitOnChar_ne_nil (sep : Char) (l : List Char) :
    splitOnChar sep l ≠ [] := by
  induction l with
  | nil => simp [splitOnChar]
  | cons c rest ih =>
    by_cases hc : c = sep
    · simp [splitOnChar, hc]
    · simp only [splitOnChar, if_neg hc]
      cases h : splitOnChar sep rest with
      | nil => exact absurd h ih
      | cons p ps => simp

/-- A separator-free list splits into itself as the single piece. -/
theorem splitOnChar_no_sep (sep : Char) (l : List Char) (h : sep ∉ l) :
    splitOnChar sep l = [l] := by
  induction l with
  | nil => rfl
  | cons c rest ih =>
    have hc : c ≠ sep := fun hc => h (by simp [hc])
    have hrest : sep ∉ rest := fun hr => h (by simp [hr])
    simp [splitOnChar, hc, ih hrest]

/-- One unfolding step of `splitOnChar` at a non-separator head. -/
theorem splitOnChar_cons_ne (sep c : Char) (l : List Char) (hc : c ≠ sep)
    (p : List Char) (ps : List (List Char)) (h : splitOnChar sep l = p :: ps) :
    splitOnChar sep (c :: l) = (c :: p) :: ps := by
  simp [splitOnChar, hc, h]

/-- Splitting a list that starts with a separator-free piece followed by a
separator peels off exactly that piece. -/
theorem splitOnChar_append_sep (sep : Char) (a b : List Char) (ha : sep ∉ a) :
    splitOnChar sep (a ++ sep :: b) = a :: splitOnChar sep b := by
  induction a with
  | nil => simp [splitOnChar]
  | cons c a2 ih =>
    have hc : c ≠ sep := fun hc => ha (by simp [hc])
    have ha2 : sep ∉ a2 := fun h2 => ha (by simp [h2])
    have hstep := splitOnChar_cons_ne sep c (a2 ++ sep :: b) hc a2
      (splitOnChar sep b) (ih ha2)
    simpa using hstep

/-- Splitting after joining recovers the pieces when no piece contains the
separator. -/
theorem splitOnChar_joinWith (sep : Char) (qs : List (List Char))
    (hne : qs ≠ []) (h : ∀ q ∈ qs, sep ∉ q) :
    splitOnChar sep (joinWith [sep] qs) = qs := by
  induction qs with
  | nil => exact absurd rfl hne
  | cons q qs2 ih =>
    cases qs2 with
    | nil =>
      simp only [joinWith]
      exact splitOnChar_no_sep sep q (h q (by simp))
    | cons q2 qs3 =>
      have hj : joinWith [sep] (q :: q2 :: qs3) = q ++ sep :: joinWith [sep] (q2 :: qs3) := by
        simp [joinWith]
      rw [hj, splitOnChar_append_sep sep q _ (h q (by simp))]
      rw [ih (by simp) (fun p hp => h p (by simp [hp]))]

/-- Association-list lookup only returns stored values. -/
theorem lookup_mem_values (ps : List (Char × Char)) (c d : Char)
    (h : ps.lookup c = some d) : ∃ k, (k, d) ∈ ps := by
  induction ps with
  | nil => simp [List.lookup] at h
  | cons p ps ih =>
    rw [List.lookup] at h
    cases hc : c == p.1 with
    | true =>
      rw [hc] at h
      simp only [Option.some.injEq] at h
      exact ⟨p.1, by simp [← h]⟩
    | false =>
      rw [hc] at h
      obtain ⟨k, hk⟩ := ih h
      exact ⟨k, by simp [hk]⟩

/-- The slug of a single character is never a slash. -/
theorem slugChar_ne_slash (c d : Char) (h : slugChar c = some d) : d ≠ '/' := by
  unfold slugChar at h
  by_cases h1 : c = ' ' || c = '\t' || c = '\n' || c = '\r'
  · rw [if_pos h1] at h
    simp only [Option.some.injEq] at h
    rw [← h]; decide
  · rw [if_neg h1] at h
    by_cases h2 : c = '-'
    · rw [if_pos h2] at h
      simp only [Option.some.injEq] at h
      rw [← h]; decide
    · rw [if_neg h2] at h
      by_cases h3 : c.isAlpha || c.isDigit
      · rw [if_pos h3] at h
        simp only [Option.some.injEq] at h
        rw [← h]
        unfold lowerChar
        cases hl : lowerPairs.lookup c with
        | none =>
          simp only [hl, Option.getD]
          intro hc
          rw [hc] at h3
          revert h3
          decide
        | some e =>
          simp only [hl, Option.getD]
          obtain ⟨k, hk⟩ := lookup_mem_values _ _ _ hl
          have hall : ∀ p ∈ lowerPairs, p.2 ≠ '/' := by decide
          exact hall (k, e) hk
      · rw [if_neg h3] at h
        exact absurd h (by simp)

/-- Slugification never produces a slash. -/
theorem slugifyChars_no_slash (l : List Char) : '/' ∉ slugifyChars l := by
  intro h
  obtain ⟨c, _, hc⟩ := List.mem_filterMap.mp h
  exact slugChar_ne_slash c '/' hc rfl

/-! ## Helper lemmas about occurrence checking and the error fold -/

/-- `List.isPrefixOf` in terms of an append decomposition. -/
theorem isPrefixOf_iff_append (p : List Char) :
    ∀ l : List Char, p.isPrefixOf l = true ↔ ∃ t, l = p ++ t := by
  induction p with
  | nil => intro l; simp [List.isPrefixOf]
  | cons a p2 ih =>
    intro l
    cases l with
    | nil =>
      simp [List.isPrefixOf]
    | cons b l2 =>
      simp only [List.isPrefixOf, Bool.and_eq_true, beq_iff_eq, ih l2]
      constructor
      · rintro ⟨rfl, t, rfl⟩
        exact ⟨t, rfl⟩
      · rintro ⟨t, ht⟩
        have hb : b = a := by simpa using congrArg List.head? ht
        refine ⟨hb.symm, t, ?_⟩
        simpa using congrArg List.tail ht

/-- The boolean occurrence check agrees with `occursIn`. -/
theorem hasOccurrence_iff (pat big : List Char) :
    hasOccurrence pat big = true ↔ occursIn pat big := by
  induction big with
  | nil =>
    simp only [hasOccurrence, occursIn]
    constructor
    · intro hp
      have hp2 : pat = [] := by simpa using hp
      exact ⟨[], [], by simp [hp2]⟩
    · rintro ⟨x, y, hxy⟩
      have h1 : x ++ pat = [] ∧ y = [] := List.append_eq_nil.mp hxy.symm
      have h2 : pat = [] := (List.append_eq_nil.mp h1.1).2
      simp [h2]
  | cons c rest ih =>
    simp only [hasOccurrence, Bool.or_eq_true, ih, isPrefixOf_iff_append]
    constructor
    · rintro (⟨t, ht⟩ | ⟨x, y, hxy⟩)
      · exact ⟨[], t, by simp [ht]⟩
      · exact ⟨c :: x, y, by simp [hxy]⟩
    · rintro ⟨x, y, hxy⟩
      cases x with
      | nil =>
        exact Or.inl ⟨y, by simpa using hxy⟩
      | cons x0 x2 =>
        right
        refine ⟨x2, y, ?_⟩
        simpa using congrArg List.tail hxy

/-- The error accumulator of the substitution fold collects exactly one
report per unresolved slug part, in template order. -/
theorem foldl_deriveStep_errors (node : JValue) (parts : List String) :
    ∀ (p : String) (errs : List ReportEvent),
      (parts.foldl (deriveStep node) (p, errs)).2
        = errs ++ (parts.filter
            (fun s => (lookupNodeValue node (segKey s)).isNone)).map
              (fun s => mkReport s (segKey s) node) := by
  induction parts with
  | nil => intro p errs; simp
  | cons s parts2 ih =>
    intro p errs
    simp only [List.foldl_cons, List.filter_cons]
    cases hv : lookupNodeValue node (segKey s) with
    | none =>
      simp only [deriveStep, hv, Option.isNone_none, if_pos]
      rw [ih]
      simp
    | some v =>
      simp only [deriveStep, hv, Option.isNone_some]
      rw [ih]
      simp

/-! ## Claim theorems -/

/-- C1 (counterexample): the claim says a defined value found via the
aggregate lookup wins even when it is falsy.  For the record
`\x7bnodes: [\x7bx: ""\x7d], x: "direct"\x7d` the aggregate lookup of `x` is the
defined falsy value `""`, yet `derivePath` resolves the segment to
`direct` — the direct value — rather than to the empty string. -/
theorem c1_counterexample :
    aggLookup (jobj [("nodes", jarr [jobj [("x", vStr "")]]), ("x", vStr "direct")])
        (segKey "\x7bT.x\x7d") = some (vStr "")
    ∧ (derivePath "p/\x7bT.x\x7d.js"
        (jobj [("nodes", jarr [jobj [("x", vStr "")]]), ("x", vStr "direct")])).path
      = "p/direct"
    ∧ safeSlugify (vStr "") = ""
    ∧ ("p/direct" : String)
      ≠ collapseStr (replaceFirstStr (removeFileExtension "p/\x7bT.x\x7d.js")
          "\x7bT.x\x7d" (safeSlugify (vStr ""))) := by
  refine ⟨rfl, rfl, rfl, ?_⟩
  decide

/-- C1 (amended): for a template whose only bracketed segment is `seg`,
value lookup proceeds aggregate-first but with JavaScript truthiness: a
truthy aggregate value is substituted; when the aggregate value is falsy
or undefined, the direct lookup's defined value (even a falsy one) is
substituted; and the segment fails to resolve exactly when the aggregate
value is falsy-or-undefined and the direct lookup is undefined. -/
theorem c1_lookup_order (tpl seg : String) (node : JValue)
    (h : extractAllCollectionSegments tpl = [seg]) :
    (∀ v, aggLookup node (segKey seg) = some v → jsTruthy v = true →
      (derivePath tpl node).path
        = collapseStr (replaceFirstStr (removeFileExtension tpl) seg (safeSlugify v))
      ∧ (derivePath tpl node).errors = [])
    ∧ (jsTruthyO (aggLookup node (segKey seg)) = false →
      ∀ v, dirLookup node (segKey seg) = some v →
      (derivePath tpl node).path
        = collapseStr (replaceFirstStr (removeFileExtension tpl) seg (safeSlugify v))
      ∧ (derivePath tpl node).errors = [])
    ∧ (jsTruthyO (aggLookup node (segKey seg)) = false →
      dirLookup node (segKey seg) = none →
      (derivePath tpl node).path = collapseStr (removeFileExtension tpl)
      ∧ (derivePath tpl node).errors = [mkReport seg (segKey seg) node]) := by
  refine ⟨?_, ?_, ?_⟩
  · intro v hv htr
    have hl : lookupNodeValue node (segKey seg) = some v := by
      unfold lookupNodeValue
      rw [hv]
      simp [jsTruthyO, htr]
    constructor <;> simp [derivePath, h, deriveStep, hl]
  · intro hfal v hv
    have hl : lookupNodeValue node (segKey seg) = some v := by
      simp [lookupNodeValue, hfal, hv]
    constructor <;> simp [derivePath, h, deriveStep, hl]
  · intro hfal hnone
    have hl : lookupNodeValue node (segKey seg) = none := by
      simp [lookupNodeValue, hfal, hnone]
    constructor <;> simp [derivePath, h, deriveStep, hl]

/-- C1 (witness): the amended lookup-order theorem applied to a concrete
one-segment template and a record whose aggregate lookup is truthy. -/
theorem c1_lookup_order_witness :
    extractAllCollectionSegments "p/\x7bT.x\x7d.js" = ["\x7bT.x\x7d"]
    ∧ aggLookup (jobj [("nodes", jarr [jobj [("x", vStr "Agg Val")]]), ("x", vStr "direct")])
        (segKey "\x7bT.x\x7d") = some (vStr "Agg Val")
    ∧ jsTruthy (vStr "Agg Val") = true
    ∧ (derivePath "p/\x7bT.x\x7d.js"
        (jobj [("nodes", jarr [jobj [("x", vStr "Agg Val")]]), ("x", vStr "direct")])).path
      = collapseStr (replaceFirstStr (removeFileExtension "p/\x7bT.x\x7d.js")
          "\x7bT.x\x7d" (safeSlugify (vStr "Agg Val"))) := by
  refine ⟨rfl, rfl, rfl, ?_⟩
  exact ((c1_lookup_order "p/\x7bT.x\x7d.js" "\x7bT.x\x7d"
    (jobj [("nodes", jarr [jobj [("x", vStr "Agg Val")]]), ("x", vStr "direct")]) rfl).1
      (vStr "Agg Val") rfl rfl).1

/-- C2: for every template and record, the reports sent to the reporter
are exactly one per segment whose dotted field path yields no defined
value under the combined lookup — each naming the raw segment text and
its normalised field path and carrying the serialised record — in
template order; resolvable segments produce none, so processing continues
past failures, and the resolution has failed exactly when this list is
nonempty. -/
theorem c2_reporter_calls (tpl : String) (node : JValue) :
    (derivePath tpl node).errors
      = ((extractAllCollectionSegments tpl).filter
          (fun s => (lookupNodeValue node (segKey s)).isNone)).map
            (fun s => mkReport s (segKey s) node) := by
  simp only [derivePath]
  rw [foldl_deriveStep_errors]
  simp

/-- C3 (counterexample): the claim says a zero-segment template is
returned unchanged apart from extension removal, but the final pass also
collapses slash runs: `a//b.js` has no bracketed segment, its stripped
form is `a//b`, yet `derivePath` returns `a/b`. -/
theorem c3_counterexample :
    extractAllCollectionSegments "a//b.js" = []
    ∧ removeFileExtension "a//b.js" = "a//b"
    ∧ (derivePath "a//b.js" (jobj [])).path = "a/b"
    ∧ ("a/b" : String) ≠ "a//b" := by
  refine ⟨rfl, rfl, rfl, ?_⟩
  decide

/-- C3 (amended): for every template containing zero bracketed segments
and every record, `derivePath` returns the template with its file
extension removed and runs of consecutive slashes collapsed, otherwise
unchanged and with no report sent, regardless of the record's content. -/
theorem c3_no_segments (tpl : String) (node : JValue)
    (h : extractAllCollectionSegments tpl = []) :
    (derivePath tpl node).path = collapseStr (removeFileExtension tpl)
    ∧ (derivePath tpl node).errors = [] := by
  constructor <;> simp [derivePath, h]

/-- C3 (witness): the amended zero-segment theorem applied to the
spec's splat-route example template, which has no brace segment. -/
theorem c3_no_segments_witness :
    extractAllCollectionSegments "image/[...].js" = []
    ∧ (derivePath "image/[...].js" (jobj [("id", vStr "1")])).path
        = collapseStr (removeFileExtension "image/[...].js")
    ∧ (derivePath "image/[...].js" (jobj [("id", vStr "1")])).errors = [] := by
  have h := c3_no_segments "image/[...].js" (jobj [("id", vStr "1")]) rfl
  exact ⟨rfl, h.1, h.2⟩

/-- C4: for every resolved value, the value-to-slug conversion stringifies
the value, splits on slash, slugifies each piece independently and rejoins
with slash: the slash-split of `safeSlugify` of a value is exactly the
piecewise slugification of the slash-split of its string form, so the
count of slash-delimited pieces is preserved. -/
theorem c4_slug_preserves_pieces (v : JValue) :
    splitOnChar '/' (safeSlugify v).data
      = (splitOnChar '/' (jsToString v).data).map slugifyChars
    ∧ (splitOnChar '/' (safeSlugify v).data).length
      = (splitOnChar '/' (jsToString v).data).length := by
  have h : splitOnChar '/' (safeSlugify v).data
      = (splitOnChar '/' (jsToString v).data).map slugifyChars := by
    show splitOnChar '/'
        (joinWith ['/'] ((splitOnChar '/' (jsToString v).data).map slugifyChars)) = _
    apply splitOnChar_joinWith
    · intro hmap
      exact splitOnChar_ne_nil '/' (jsToString v).data (List.map_eq_nil_iff.mp hmap)
    · intro q hq
      obtain ⟨p, _, hp⟩ := List.mem_map.mp hq
      rw [← hp]
      exact slugifyChars_no_slash p
  exact ⟨h, by rw [h, List.length_map]⟩

/-- C5 (counterexample): the claim quantifies over every template
containing the segment; a template that additionally contains the segment
referencing the field `nodes` resolves differently against the plain
record and its aggregate-wrapped form, because the wrapper itself carries
a `nodes` field. -/
theorem c5_counterexample :
    segKey "\x7bT.a__b__c\x7d" = "a.b.c"
    ∧ (derivePath "p/\x7bT.a__b__c\x7d/\x7bT.nodes\x7d.js"
        (jobj [("a", jobj [("b", jobj [("c", vStr "x")])])])).path
      = "p/x/\x7bT.nodes\x7d"
    ∧ (derivePath "p/\x7bT.a__b__c\x7d/\x7bT.nodes\x7d.js"
        (jobj [("nodes", jarr [jobj [("a", jobj [("b", jobj [("c", vStr "x")])])]])])).path
      = "p/x/object-object"
    ∧ ("p/x/\x7bT.nodes\x7d" : String) ≠ "p/x/object-object" := by
  refine ⟨rfl, rfl, by decide, by decide⟩

/-- C5 (amended): a segment with dotted field path `a.b.c` (written with
double-underscore separators) resolves against the record
`\x7ba: \x7bb: \x7bc: "x"\x7d\x7d\x7d` to the same resolved path as against the
aggregate-wrapped record `\x7bnodes: [\x7ba: \x7bb: \x7bc: "x"\x7d\x7d\x7d]\x7d`, for
every template in which that segment is the only bracketed segment. -/
theorem c5_lookup_equivalence (tpl seg : String)
    (h : extractAllCollectionSegments tpl = [seg])
    (hk : segKey seg = "a.b.c") :
    (derivePath tpl (jobj [("a", jobj [("b", jobj [("c", vStr "x")])])])).path
      = (derivePath tpl
          (jobj [("nodes", jarr [jobj [("a", jobj [("b", jobj [("c", vStr "x")])])]])])).path := by
  have h1 : lookupNodeValue (jobj [("a", jobj [("b", jobj [("c", vStr "x")])])]) "a.b.c"
      = some (vStr "x") := rfl
  have h2 : lookupNodeValue
      (jobj [("nodes", jarr [jobj [("a", jobj [("b", jobj [("c", vStr "x")])])]])]) "a.b.c"
      = some (vStr "x") := rfl
  simp [derivePath, h, deriveStep, hk, h1, h2]

/-- C5 (witness): the amended equivalence applied to a concrete
one-segment template with field path `a.b.c`. -/
theorem c5_lookup_equivalence_witness :
    extractAllCollectionSegments "x/\x7bField.a__b__c\x7d.js" = ["\x7bField.a__b__c\x7d"]
    ∧ segKey "\x7bField.a__b__c\x7d" = "a.b.c"
    ∧ (derivePath "x/\x7bField.a__b__c\x7d.js"
        (jobj [("a", jobj [("b", jobj [("c", vStr "x")])])])).path
      = (derivePath "x/\x7bField.a__b__c\x7d.js"
          (jobj [("nodes", jarr [jobj [("a", jobj [("b", jobj [("c", vStr "x")])])]])])).path :=
  ⟨rfl, rfl, c5_lookup_equivalence "x/\x7bField.a__b__c\x7d.js" "\x7bField.a__b__c\x7d" rfl rfl⟩

/-- C6: for the template `products/\x7bProduct.name\x7d.js` and the record
`\x7bid: "1", name: "Veggie Burger"\x7d`, `derivePath` returns exactly
`products/veggie-burger`, with no report sent. -/
theorem c6_products_example :
    (derivePath "products/\x7bProduct.name\x7d.js"
        (jobj [("id", vStr "1"), ("name", vStr "Veggie Burger")])).path
      = "products/veggie-burger"
    ∧ (derivePath "products/\x7bProduct.name\x7d.js"
        (jobj [("id", vStr "1"), ("name", vStr "Veggie Burger")])).errors = [] :=
  ⟨rfl, rfl⟩

/-- C7: for the template `blog/\x7bMarkdownRemark.parent__(File)__name\x7d.js`
and the record `\x7bid: "2", parent: \x7bname: "Learning Gatsby"\x7d\x7d`,
`derivePath` returns exactly `blog/learning-gatsby`; in particular the
union marker `(File)` is removed from the field path used for lookup,
which normalises to `parent.name`. -/
theorem c7_union_marker_example :
    segKey "\x7bMarkdownRemark.parent__(File)__name\x7d" = "parent.name"
    ∧ (derivePath "blog/\x7bMarkdownRemark.parent__(File)__name\x7d.js"
        (jobj [("id", vStr "2"), ("parent", jobj [("name", vStr "Learning Gatsby")])])).path
      = "blog/learning-gatsby" :=
  ⟨rfl, rfl⟩

/-- C8: for every template and record for which some segment's resolved
value is the empty string, or begins or ends with a slash, the returned
path contains no run of two or more consecutive slashes. -/
theorem c8_no_double_slash (tpl : String) (node : JValue) (seg : String) (v : JValue)
    (hseg : seg ∈ extractAllCollectionSegments tpl)
    (hv : lookupNodeValue node (segKey seg) = some v)
    (hval : safeSlugify v = "" ∨ (safeSlugify v).data.head? = some '/'
        ∨ (safeSlugify v).data.getLast? = some '/') :
    hasDoubleSlashStr (derivePath tpl node).path = false := by
  have h := (collapseGo_flags (((extractAllCollectionSegments tpl).foldl
    (deriveStep node) (removeFileExtension tpl, [])).1).data).1
  simpa [derivePath, hasDoubleSlashStr, collapseStr] using h

/-- C8 (witness): the no-double-slash theorem applied to a record whose
resolved value slugifies to the empty string, leaving `a//b` before the
collapse. -/
theorem c8_no_double_slash_witness :
    ("\x7bT.x\x7d" ∈ extractAllCollectionSegments "a/\x7bT.x\x7d/b.js")
    ∧ lookupNodeValue (jobj [("x", vStr ".")]) (segKey "\x7bT.x\x7d") = some (vStr ".")
    ∧ safeSlugify (vStr ".") = ""
    ∧ hasDoubleSlashStr (derivePath "a/\x7bT.x\x7d/b.js" (jobj [("x", vStr ".")])).path
        = false := by
  refine ⟨by decide, rfl, rfl, ?_⟩
  exact c8_no_double_slash "a/\x7bT.x\x7d/b.js" (jobj [("x", vStr ".")])
    "\x7bT.x\x7d" (vStr ".") (by decide) rfl (Or.inl rfl)

/-- C9: `derivePath` is deterministic — it is a pure function of the
template and the record, so two invocations with equal inputs return the
same resolved path. -/
theorem c9_deterministic (tpl1 tpl2 : String) (node1 node2 : JValue)
    (ht : tpl1 = tpl2) (hn : node1 = node2) :
    (derivePath tpl1 node1).path = (derivePath tpl2 node2).path := by
  rw [ht, hn]

/-- C9 (witness): determinism applied at a concrete template and record. -/
theorem c9_deterministic_witness :
    (derivePath "products/\x7bProduct.name\x7d.js" (jobj [("name", vStr "Veggie Burger")])).path
      = (derivePath "products/\x7bProduct.name\x7d.js" (jobj [("name", vStr "Veggie Burger")])).path :=
  c9_deterministic "products/\x7bProduct.name\x7d.js" "products/\x7bProduct.name\x7d.js"
    (jobj [("name", vStr "Veggie Burger")]) (jobj [("name", vStr "Veggie Burger")]) rfl rfl

/-- C10 (counterexample): the claim says a failed segment's raw bracketed
text always remains verbatim (up to slash collapsing).  In the template
`p/\x7bT.a\x7bT.b\x7d/\x7bT.b\x7d.js` the first extracted segment
`\x7bT.a\x7bT.b\x7d` fails to resolve, but substituting the second segment
`\x7bT.b\x7d` rewrites the first occurrence of that text — which lies inside
the failed segment's region — so the failed raw text (collapsed or not)
no longer occurs in the returned path. -/
theorem c10_counterexample :
    lookupNodeValue (jobj [("b", vStr "hello")]) (segKey "\x7bT.a\x7bT.b\x7d") = none
    ∧ "\x7bT.a\x7bT.b\x7d" ∈ extractAllCollectionSegments "p/\x7bT.a\x7bT.b\x7d/\x7bT.b\x7d.js"
    ∧ (derivePath "p/\x7bT.a\x7bT.b\x7d/\x7bT.b\x7d.js" (jobj [("b", vStr "hello")])).path
      = "p/\x7bT.ahello/\x7bT.b\x7d"
    ∧ hasOccurrence "\x7bT.a\x7bT.b\x7d".data
        (derivePath "p/\x7bT.a\x7bT.b\x7d/\x7bT.b\x7d.js" (jobj [("b", vStr "hello")])).path.data
      = false
    ∧ hasOccurrence (collapseGo false "\x7bT.a\x7bT.b\x7d".data)
        (derivePath "p/\x7bT.a\x7bT.b\x7d/\x7bT.b\x7d.js" (jobj [("b", vStr "hello")])).path.data
      = false := by
  refine ⟨rfl, by decide, rfl, by decide, by decide⟩

/-- C10 (amended): for every template and record whose only bracketed
segment fails to resolve, `derivePath` still returns a path normally: the
path is the collapsed extension-stripped template, the failed segment's
raw text (with its slash runs collapsed) still occurs verbatim in it, no
substitution is performed, and exactly one report is sent. -/
theorem c10_failed_segment (tpl seg : String) (node : JValue)
    (h : extractAllCollectionSegments tpl = [seg])
    (hfail : lookupNodeValue node (segKey seg) = none) :
    (derivePath tpl node).path = collapseStr (removeFileExtension tpl)
    ∧ occursIn (collapseGo false seg.data) (derivePath tpl node).path.data
    ∧ (derivePath tpl node).errors = [mkReport seg (segKey seg) node] := by
  have hpath : (derivePath tpl node).path = collapseStr (removeFileExtension tpl) := by
    simp [derivePath, h, deriveStep, hfail]
  have herr : (derivePath tpl node).errors = [mkReport seg (segKey seg) node] := by
    simp [derivePath, h, deriveStep, hfail]
  refine ⟨hpath, ?_, herr⟩
  have hmem : seg.data ∈ extractGo none tpl.data := by
    have hmap : (extractGo none tpl.data).map (fun l => (⟨l⟩ : String)) = [seg] := h
    obtain ⟨a, ha, hstr⟩ : ∃ a, extractGo none tpl.data = [a] ∧ (⟨a⟩ : String) = seg := by
      cases hgo : extractGo none tpl.data with
      | nil =>
        rw [hgo] at hmap
        exact absurd hmap (by simp)
      | cons a rest =>
        rw [hgo] at hmap
        cases rest with
        | nil => exact ⟨a, rfl, by simpa using hmap⟩
        | cons b r2 =>
          rw [List.map_cons, List.map_cons] at hmap
          exact absurd hmap (by simp)
    have hdata : seg.data = a := by rw [← hstr]
    rw [ha, hdata]
    simp
  obtain ⟨mid, hshape⟩ := extractGo_shape tpl.data none seg.data hmem
  have hocc1 : occursIn seg.data tpl.data := (extractGo_occurs tpl.data).1 seg.data hmem
  have hocc2 : occursIn seg.data (removeExtChars tpl.data) := by
    have e : seg.data = ('{' :: mid) ++ ['}'] := by simpa using hshape
    rw [e] at hocc1 ⊢
    exact occursIn_removeExt ('{' :: mid) tpl.data hocc1
  have hocc3 : occursIn (collapseGo false seg.data)
      (collapseGo false (removeExtChars tpl.data)) := by
    rw [hshape]
    apply occursIn_collapse
    rw [← hshape]
    exact hocc2
  rw [hpath]
  exact hocc3

/-- C10 (witness): the amended failed-segment theorem applied to a
concrete one-segment template whose field is missing from the record. -/
theorem c10_failed_segment_witness :
    extractAllCollectionSegments "blog/\x7bPost.missing\x7d.js" = ["\x7bPost.missing\x7d"]
    ∧ lookupNodeValue (jobj [("id", vStr "7")]) (segKey "\x7bPost.missing\x7d") = none
    ∧ (derivePath "blog/\x7bPost.missing\x7d.js" (jobj [("id", vStr "7")])).path
        = collapseStr (removeFileExtension "blog/\x7bPost.missing\x7d.js")
    ∧ occursIn (collapseGo false "\x7bPost.missing\x7d".data)
        (derivePath "blog/\x7bPost.missing\x7d.js" (jobj [("id", vStr "7")])).path.data
    ∧ (derivePath "blog/\x7bPost.missing\x7d.js" (jobj [("id", vStr "7")])).errors
        = [mkReport "\x7bPost.missing\x7d" (segKey "\x7bPost.missing\x7d")
            (jobj [("id", vStr "7")])] := by
  have h := c10_failed_segment "blog/\x7bPost.missing\x7d.js" "\x7bPost.missing\x7d"
    (jobj [("id", vStr "7")]) rfl rfl
  exact ⟨rfl, rfl, h.1, h.2.1, h.2.2⟩

end DerivePath
